import Mathlib

/-!
Verification of the buddy allocator in `src/buddy.h` (jazzfool/buddy).

The allocator tracks a span `[0, total_size)` with a binary partition tree.
Each C `BuddyNode` carries a type (`FREE`/`SPLIT`/`OCCUPIED`), an `offset`,
a `size`, and possibly-NULL `left`/`right` child pointers.  We embed the
tree shallowly: a NULL child pointer is the constructor `Tree.nil`, and the
parent back-pointer of the C code is represented by addressing a node with
its path of directions from the root, so that the upward walk of
`node_update` becomes recursion on the reversed path.

`alloc_buf_node` recurses into freshly materialized children, so its
recursion is not structural on the tree; moreover the C function does not
terminate on a request of size 0 (a `FREE` node with `size / 2 >= 0` splits
forever).  We therefore embed it with explicit fuel (`allocN`), prove the
result is fuel-independent once the fuel reaches an explicit bound
(`needed`), and use that bound in the wrapper `allocTop` that embeds
`buddy_buf_alloc`.

`node_update` can call itself on `node->parent` even when that parent is
`NULL` (when the coalesced `Split` node is the root): dereferencing the
NULL pointer is undefined behavior.  The embedding `nodeUpdR` returns
`FreeRes.ub UBKind.nullParent` in exactly that situation, and
`FreeRes.ub UBKind.badPath` when a handle does not address a node at all.
-/

namespace Buddy

/-- Direction of a child edge: left or right. -/
inductive Dir where
  | l
  | r
deriving DecidableEq, Repr

/-- The C enum `BuddyNodeType`. -/
inductive NTy where
  | free
  | split
  | occupied
deriving DecidableEq, Repr

/-- A `BuddyNode*`: either NULL (`nil`) or a node with a type, an offset, a
size, and two child pointers. -/
inductive Tree where
  | nil : Tree
  | node (ty : NTy) (off sz : Nat) (l r : Tree) : Tree
deriving DecidableEq, Repr

/-- `buddy_buf_new size`: the root node, `FREE`, offset 0, no children. -/
def freshBuf (T : Nat) : Tree :=
  .node .free 0 T .nil .nil

/-- `buf_node_new parent left`: a fresh `FREE` child of a node with offset
`off` and size `sz`; the left child keeps the parent's offset, the right
child is shifted by `sz / 2`; both have size `sz / 2`. -/
def bufNodeNew (off sz : Nat) (isLeft : Bool) : Tree :=
  .node .free (off + if isLeft then 0 else sz / 2) (sz / 2) .nil .nil

/-- `alloc_buf_node`, with explicit fuel.  The result is `none` when the
fuel runs out (which models the C function's divergence: it only happens
for requests of size 0, see `alloc_total`).  Otherwise the result is the
pair of the optional allocation — offset, granted size, and the path from
the root to the node that was marked `OCCUPIED` (the C handle's node
pointer) — together with the mutated tree. -/
def allocN : Nat → Tree → Nat → Option (Option (Nat × Nat × List Dir) × Tree)
  | 0, _, _ => none
  | _ + 1, .nil, _ => some (none, .nil)
  | fuel + 1, .node ty o s l r, req =>
    match ty with
    | .free =>
      if s / 2 ≥ req then
        match allocN fuel (bufNodeNew o s true) req with
        | none => none
        | some (res, l2) =>
          some (res.map (fun a => (a.1, a.2.1, Dir.l :: a.2.2)), .node .split o s l2 r)
      else if s ≥ req then
        some (some (o, s, []), .node .occupied o s l r)
      else
        some (none, .node .free o s l r)
    | .split =>
      if s / 2 < req then
        some (none, .node .split o s l r)
      else
        match l with
        | .nil =>
          match allocN fuel (bufNodeNew o s true) req with
          | none => none
          | some (res, l2) =>
            some (res.map (fun a => (a.1, a.2.1, Dir.l :: a.2.2)), .node .split o s l2 r)
        | .node lty lo ls ll lr =>
          match allocN fuel (.node lty lo ls ll lr) req with
          | none => none
          | some (some a, l2) =>
            some (some (a.1, a.2.1, Dir.l :: a.2.2), .node .split o s l2 r)
          | some (none, l2) =>
            match r with
            | .nil =>
              match allocN fuel (bufNodeNew o s false) req with
              | none => none
              | some (res, r2) =>
                some (res.map (fun a => (a.1, a.2.1, Dir.r :: a.2.2)), .node .split o s l2 r2)
            | .node rty ro rs rl rr =>
              match allocN fuel (.node rty ro rs rl rr) req with
              | none => none
              | some (some a, r2) =>
                some (some (a.1, a.2.1, Dir.r :: a.2.2), .node .split o s l2 r2)
              | some (none, r2) =>
                some (none, .node .split o s l2 r2)
    | .occupied => some (none, .node .occupied o s l r)

/-- A fuel bound sufficient for `allocN` on requests of size at least 1:
one step for the node itself, `sz` steps for the chain of freshly
materialized halves below it, and recursively enough for both subtrees. -/
def needed : Tree → Nat
  | .nil => 1
  | .node _ _ s l r => 1 + s + max (needed l) (needed r)

/-- `buddy_buf_alloc`: run the allocation descent with sufficient fuel. -/
def allocTop (t : Tree) (req : Nat) : Option (Option (Nat × Nat × List Dir) × Tree) :=
  allocN (needed t) t req

/-- The allocation handle produced by `buddy_buf_alloc` (if any). -/
def allocOut (t : Tree) (req : Nat) : Option (Nat × Nat × List Dir) :=
  ((allocTop t req).getD (none, t)).1

/-- The tree after `buddy_buf_alloc`. -/
def allocNext (t : Tree) (req : Nat) : Tree :=
  ((allocTop t req).getD (none, t)).2

/-- Follow a path of directions from the root; a NULL pointer (`nil`)
absorbs any remaining path. -/
def getSub : Tree → List Dir → Tree
  | t, [] => t
  | .nil, _ :: _ => .nil
  | .node _ _ _ l _, .l :: p => getSub l p
  | .node _ _ _ _ r, .r :: p => getSub r p

/-- Replace the subtree addressed by a path (a no-op below a NULL pointer,
which never happens on the valid paths the algorithms use). -/
def setSub : Tree → List Dir → Tree → Tree
  | _, [], u => u
  | .nil, _ :: _, _ => .nil
  | .node ty o s l r, .l :: p, u => .node ty o s (setSub l p u) r
  | .node ty o s l r, .r :: p, u => .node ty o s l (setSub r p u)

/-- The type, offset and size of the node addressed by a path, if a node
exists there. -/
def nodeInfo (t : Tree) (p : List Dir) : Option (NTy × Nat × Nat) :=
  match getSub t p with
  | .nil => none
  | .node ty o s _ _ => some (ty, o, s)

/-- The `can_coalesce` test of `node_update` on one child pointer: absent
or `FREE`. -/
def nilOrFree : Tree → Bool
  | .nil => true
  | .node .free _ _ _ _ => true
  | .node .split _ _ _ _ => false
  | .node .occupied _ _ _ _ => false

/-- The two ways the embedded `node_update`/`buddy_buf_free` can hit
undefined behavior: calling `node_update` on a NULL parent pointer after
coalescing the root, or being handed a handle that addresses no node. -/
inductive UBKind where
  | nullParent
  | badPath
deriving DecidableEq, Repr

/-- Result of the deallocation fix-up: a well-defined resulting tree, or
undefined behavior. -/
inductive FreeRes where
  | ok (t : Tree) : FreeRes
  | ub (k : UBKind) : FreeRes
deriving DecidableEq, Repr

/-- Whether a fix-up run completed without undefined behavior. -/
def FreeRes.isOk : FreeRes → Bool
  | .ok _ => true
  | .ub _ => false

/-- The resulting tree of a fix-up run, with a fallback for UB. -/
def FreeRes.getD : FreeRes → Tree → Tree
  | .ok t, _ => t
  | .ub _, d => d

/-- `node_update`, walking upward.  The argument `rq` is the reversed path
from the root to the current node, so moving to the parent is taking the
tail.  The `FREE` case with a parent destroys the current node (clearing
the parent's child pointer) and continues at the parent; the `SPLIT` case
destroys the current node and continues at the parent when both children
are absent-or-`FREE` — and when that eligible `SPLIT` node is the root the
C code calls `node_update(NULL)`, which we return as `ub .nullParent`. -/
def nodeUpdR : List Dir → Tree → FreeRes
  | rq, t =>
    match getSub t rq.reverse with
    | .nil => .ub .badPath
    | .node .free _ _ _ _ =>
      match rq with
      | [] => .ok t
      | _ :: rest => nodeUpdR rest (setSub t rq.reverse .nil)
    | .node .split _ _ l r =>
      if nilOrFree l && nilOrFree r then
        match rq with
        | [] => .ub .nullParent
        | _ :: rest => nodeUpdR rest (setSub t rq.reverse .nil)
      else .ok t
    | .node .occupied _ _ _ _ => .ok t

/-- `buddy_buf_free`: set the handle's node to `FREE` (keeping its
children, exactly as the C assignment `alloc.node->type = NODE_TYPE_FREE`
does) and run the fix-up from it. -/
def buddyFree (t : Tree) (p : List Dir) : FreeRes :=
  match getSub t p with
  | .nil => .ub .badPath
  | .node _ o s l r => nodeUpdR p.reverse (setSub t p (.node .free o s l r))

/-- The tree after `buddy_buf_free`, with the untouched tree as fallback
in the UB case. -/
def freeNext (t : Tree) (p : List Dir) : Tree :=
  (buddyFree t p).getD t

/-- The `(offset, size)` ranges of all `OCCUPIED` nodes, in tree order. -/
def occList : Tree → List (Nat × Nat)
  | .nil => []
  | .node ty o s l r =>
    (if ty = .occupied then [(o, s)] else []) ++ occList l ++ occList r

/-- Structural invariant of every tree the allocator builds: a node that is
not `SPLIT` has no children. -/
def leafyB : Tree → Bool
  | .nil => true
  | .node ty _ _ l r =>
    (decide (ty = .split) || (decide (l = .nil) && decide (r = .nil))) &&
      leafyB l && leafyB r

/-- Geometric invariant: the node addressed stores exactly the offset and
size dictated by halving, i.e. the left child covers the first half and
the right child the second half of the parent's range. -/
def geomB : Nat → Nat → Tree → Bool
  | _, _, .nil => true
  | off, sz, .node _ o s l r =>
    decide (o = off) && decide (s = sz) &&
      geomB off (sz / 2) l && geomB (off + sz / 2) (sz / 2) r

/-- Boolean prefix test on paths. -/
def pre : List Dir → List Dir → Bool
  | [], _ => true
  | _ :: _, [] => false
  | a :: q, b :: p => decide (a = b) && pre q p

/-- The offset stored in a node (0 for `nil`). -/
def offOf : Tree → Nat
  | .nil => 0
  | .node _ o _ _ _ => o

/-- The size stored in a node (0 for `nil`). -/
def szOf : Tree → Nat
  | .nil => 0
  | .node _ _ s _ _ => s

/-- All tree states reachable from a fresh allocator by the public API:
`buddy_buf_alloc` with a positive request, and `buddy_buf_free` with a
handle addressing an `OCCUPIED` node, completing without UB. -/
inductive Reachable (T : Nat) : Tree → Prop where
  | base : Reachable T (freshBuf T)
  | stepAlloc {t : Tree} {req : Nat} {res : Option (Nat × Nat × List Dir)} {t' : Tree} :
      Reachable T t → 1 ≤ req → allocTop t req = some (res, t') → Reachable T t'
  | stepFree {t : Tree} {p : List Dir} {o s : Nat} {t' : Tree} :
      Reachable T t → nodeInfo t p = some (.occupied, o, s) →
      buddyFree t p = .ok t' → Reachable T t'

/-- Run a sequence of allocations, collecting the returned ranges. -/
def allocSeq : Tree → List Nat → List (Nat × Nat) × Tree
  | t, [] => ([], t)
  | t, req :: reqs =>
    match allocTop t req with
    | some (some a, t2) =>
      ((a.1, a.2.1) :: (allocSeq t2 reqs).1, (allocSeq t2 reqs).2)
    | some (none, t2) => allocSeq t2 reqs
    | none => allocSeq t reqs

/-- Two half-open ranges do not overlap. -/
def disjointR (a b : Nat × Nat) : Prop :=
  a.1 + a.2 ≤ b.1 ∨ b.1 + b.2 ≤ a.1

theorem getSub_nil (p : List Dir) : getSub .nil p = .nil := by
  cases p <;> rfl

theorem getSub_cons (ty : NTy) (o s : Nat) (l r : Tree) (d : Dir) (p : List Dir) :
    getSub (.node ty o s l r) (d :: p) = getSub (match d with | .l => l | .r => r) p := by
  cases d <;> rfl

theorem getSub_append (t : Tree) (p q : List Dir) :
    getSub t (p ++ q) = getSub (getSub t p) q := by
  induction p generalizing t with
  | nil => simp [getSub]
  | cons d p ih =>
    cases t with
    | nil => simp [getSub_nil]
    | node ty o s l r => cases d <;> simp [getSub, ih]

theorem pre_iff (q p : List Dir) : pre q p = true ↔ ∃ s, p = q ++ s := by
  induction q generalizing p with
  | nil => simp [pre]
  | cons a q ih =>
    cases p with
    | nil => simp [pre]
    | cons b p =>
      simp only [pre, Bool.and_eq_true, decide_eq_true_eq, ih, List.cons_append,
        List.cons.injEq]
      constructor
      · rintro ⟨rfl, s, rfl⟩
        exact ⟨s, rfl, rfl⟩
      · rintro ⟨s, rfl, rfl⟩
        exact ⟨rfl, s, rfl⟩

theorem pre_self (q : List Dir) : pre q q = true := by
  rw [pre_iff]
  exact ⟨[], (List.append_nil q).symm⟩

theorem nodeInfo_cons (ty : NTy) (o s : Nat) (l r : Tree) (d : Dir) (p : List Dir) :
    nodeInfo (.node ty o s l r) (d :: p) = nodeInfo (match d with | .l => l | .r => r) p := by
  cases d <;> rfl

theorem info_remove (q : List Dir) :
    ∀ (t : Tree) (p : List Dir), getSub t q ≠ .nil →
      nodeInfo (setSub t q .nil) p =
        if pre q p = true then none else nodeInfo t p := by
  induction q with
  | nil =>
    intro t p _
    simp [setSub, pre, nodeInfo, getSub_nil]
  | cons a q ih =>
    intro t p h
    cases t with
    | nil => simp [getSub_nil] at h
    | node ty o s l r =>
      cases p with
      | nil =>
        cases a <;> simp [setSub, pre, nodeInfo, getSub]
      | cons b p =>
        cases a <;> cases b
        case l.l =>
          have h' : getSub l q ≠ .nil := by simpa [getSub_cons] using h
          simp [setSub, nodeInfo_cons, pre, ih l p h']
        case l.r =>
          simp [setSub, nodeInfo_cons, pre]
        case r.l =>
          simp [setSub, nodeInfo_cons, pre]
        case r.r =>
          have h' : getSub r q ≠ .nil := by simpa [getSub_cons] using h
          simp [setSub, nodeInfo_cons, pre, ih r p h']

theorem leafy_node_iff (ty : NTy) (o s : Nat) (l r : Tree) :
    leafyB (.node ty o s l r) = true ↔
      (ty = .split ∨ (l = .nil ∧ r = .nil)) ∧ leafyB l = true ∧ leafyB r = true := by
  simp [leafyB, Bool.and_eq_true, Bool.or_eq_true, decide_eq_true_eq, and_assoc]

theorem geom_node_iff (off sz : Nat) (ty : NTy) (o s : Nat) (l r : Tree) :
    geomB off sz (.node ty o s l r) = true ↔
      o = off ∧ s = sz ∧ geomB off (sz / 2) l = true ∧
        geomB (off + sz / 2) (sz / 2) r = true := by
  simp [geomB, Bool.and_eq_true, decide_eq_true_eq, and_assoc]

theorem leafy_getSub (p : List Dir) :
    ∀ t : Tree, leafyB t = true → leafyB (getSub t p) = true := by
  induction p with
  | nil => intro t h; simpa [getSub] using h
  | cons d p ih =>
    intro t h
    cases t with
    | nil => simpa [getSub_nil] using h
    | node ty o s l r =>
      rw [leafy_node_iff] at h
      cases d <;> simp only [getSub_cons] <;> [exact ih l h.2.1; exact ih r h.2.2]

theorem leafy_setSub (p : List Dir) :
    ∀ (t u : Tree), leafyB t = true → getSub t p ≠ .nil → leafyB u = true →
      leafyB (setSub t p u) = true := by
  induction p with
  | nil => intro t u _ _ hu; simpa [setSub] using hu
  | cons d p ih =>
    intro t u ht hne hu
    cases t with
    | nil => simp [getSub_nil] at hne
    | node ty o s l r =>
      rw [leafy_node_iff] at ht
      have hsplit : ty = .split := by
        rcases ht.1 with h | ⟨hl, hr⟩
        · exact h
        · exfalso
          apply hne
          cases d <;> simp [getSub_cons, hl, hr, getSub_nil]
      cases d with
      | l =>
        have hne' : getSub l p ≠ .nil := by simpa [getSub_cons] using hne
        simp only [setSub]
        rw [leafy_node_iff]
        exact ⟨Or.inl hsplit, ih l u ht.2.1 hne' hu, ht.2.2⟩
      | r =>
        have hne' : getSub r p ≠ .nil := by simpa [getSub_cons] using hne
        simp only [setSub]
        rw [leafy_node_iff]
        exact ⟨Or.inl hsplit, ht.2.1, ih r u ht.2.2 hne' hu⟩

theorem geom_setSub_nil (q : List Dir) :
    ∀ (t : Tree) (off sz : Nat), geomB off sz t = true →
      geomB off sz (setSub t q .nil) = true := by
  induction q with
  | nil => intro t off sz _; simp [setSub, geomB]
  | cons d q ih =>
    intro t off sz h
    cases t with
    | nil => simpa [setSub] using h
    | node ty o s l r =>
      rw [geom_node_iff] at h
      cases d <;> simp only [setSub] <;> rw [geom_node_iff]
      · exact ⟨h.1, h.2.1, ih l off (sz / 2) h.2.2.1, h.2.2.2⟩
      · exact ⟨h.1, h.2.1, h.2.2.1, ih r (off + sz / 2) (sz / 2) h.2.2.2⟩

theorem geom_setSub_node (p : List Dir) :
    ∀ (t : Tree) (off sz : Nat) (ty : NTy) (o s : Nat) (l r u : Tree),
      geomB off sz t = true → getSub t p = .node ty o s l r →
      geomB o s u = true → geomB off sz (setSub t p u) = true := by
  induction p with
  | nil =>
    intro t off sz ty o s l r u hg hget hu
    simp only [getSub] at hget
    subst hget
    rw [geom_node_iff] at hg
    simpa [setSub, hg.1, hg.2.1] using hu
  | cons d p ih =>
    intro t off sz ty o s l r u hg hget hu
    cases t with
    | nil => simp [getSub_nil] at hget
    | node ty2 o2 s2 l2 r2 =>
      rw [geom_node_iff] at hg
      cases d with
      | l =>
        simp only [getSub_cons] at hget
        simp only [setSub]
        rw [geom_node_iff]
        exact ⟨hg.1, hg.2.1, ih l2 off (sz / 2) ty o s l r u hg.2.2.1 hget hu, hg.2.2.2⟩
      | r =>
        simp only [getSub_cons] at hget
        simp only [setSub]
        rw [geom_node_iff]
        exact ⟨hg.1, hg.2.1, hg.2.2.1,
          ih r2 (off + sz / 2) (sz / 2) ty o s l r u hg.2.2.2 hget hu⟩

theorem geom_getSub (p : List Dir) :
    ∀ (t : Tree) (off sz : Nat) (ty : NTy) (o s : Nat) (l r : Tree),
      geomB off sz t = true → getSub t p = .node ty o s l r →
      geomB o s (.node ty o s l r) = true := by
  induction p with
  | nil =>
    intro t off sz ty o s l r hg hget
    simp only [getSub] at hget
    subst hget
    rw [geom_node_iff] at hg
    rw [geom_node_iff]
    exact ⟨rfl, rfl, by simpa [hg.1, hg.2.1] using hg.2.2.1,
      by simpa [hg.1, hg.2.1] using hg.2.2.2⟩
  | cons d p ih =>
    intro t off sz ty o s l r hg hget
    cases t with
    | nil => simp [getSub_nil] at hget
    | node ty2 o2 s2 l2 r2 =>
      rw [geom_node_iff] at hg
      cases d with
      | l =>
        simp only [getSub_cons] at hget
        exact ih l2 off (sz / 2) ty o s l r hg.2.2.1 hget
      | r =>
        simp only [getSub_cons] at hget
        exact ih r2 (off + sz / 2) (sz / 2) ty o s l r hg.2.2.2 hget

theorem geom_depth (p : List Dir) :
    ∀ (t : Tree) (off sz : Nat) (ty : NTy) (o s : Nat) (l r : Tree),
      geomB off sz t = true → getSub t p = .node ty o s l r →
      s = sz / 2 ^ p.length := by
  induction p with
  | nil =>
    intro t off sz ty o s l r hg hget
    simp only [getSub] at hget
    subst hget
    rw [geom_node_iff] at hg
    simpa using hg.2.1
  | cons d p ih =>
    intro t off sz ty o s l r hg hget
    cases t with
    | nil => simp [getSub_nil] at hget
    | node ty2 o2 s2 l2 r2 =>
      rw [geom_node_iff] at hg
      have step : ∀ u uo, geomB uo (sz / 2) u = true → getSub u p = .node ty o s l r →
          s = sz / 2 ^ (d :: p).length := by
        intro u uo hgu hgetu
        have hs := ih u uo (sz / 2) ty o s l r hgu hgetu
        rw [hs]
        simp [List.length_cons, Nat.div_div_eq_div_mul, pow_succ, Nat.mul_comm]
      cases d with
      | l =>
        simp only [getSub_cons] at hget
        exact step l2 off hg.2.2.1 hget
      | r =>
        simp only [getSub_cons] at hget
        exact step r2 (off + sz / 2) hg.2.2.2 hget

theorem bufNodeNew_true (o s : Nat) :
    bufNodeNew o s true = .node .free o (s / 2) .nil .nil := by
  simp [bufNodeNew]

theorem bufNodeNew_false (o s : Nat) :
    bufNodeNew o s false = .node .free (o + s / 2) (s / 2) .nil .nil := by
  simp [bufNodeNew]

theorem alloc_free_isSome (fuel : Nat) :
    ∀ (o s : Nat) (l r : Tree) (req : Nat) (res : Option (Nat × Nat × List Dir)) (t' : Tree),
      allocN fuel (.node .free o s l r) req = some (res, t') → req ≤ s →
      res.isSome = true := by
  induction fuel with
  | zero => intro o s l r req res t' h _; simp [allocN] at h
  | succ n ih =>
    intro o s l r req res t' h hle
    simp only [allocN] at h
    by_cases h1 : s / 2 ≥ req
    · rw [if_pos h1] at h
      split at h
      · exact absurd h (by simp)
      · next res2 l2 heq =>
          rw [Option.some.injEq, Prod.mk.injEq] at h
          rw [bufNodeNew_true] at heq
          have h2 := ih o (s / 2) .nil .nil req res2 l2 heq (by omega)
          rw [← h.1]
          cases res2 with
          | none => simp at h2
          | some a => simp
    · rw [if_neg h1, if_pos hle] at h
      rw [Option.some.injEq, Prod.mk.injEq] at h
      rw [← h.1]
      simp

theorem alloc_fail_eq (fuel : Nat) :
    ∀ (t : Tree) (req : Nat) (t' : Tree),
      allocN fuel t req = some (none, t') → t' = t := by
  induction fuel with
  | zero => intro t req t' h; simp [allocN] at h
  | succ n ih =>
    intro t req t' h
    cases t with
    | nil => simp [allocN] at h; exact h.symm
    | node ty o s l r =>
      cases ty with
      | free =>
        simp only [allocN] at h
        split at h
        · split at h
          · exact absurd h (by simp)
          · next res2 l2 heq =>
              rw [Option.some.injEq, Prod.mk.injEq] at h
              have h2 := alloc_free_isSome n o (s / 2) .nil .nil req res2 l2
                (by rwa [bufNodeNew_true] at heq) (by omega)
              cases res2 with
              | none => simp at h2
              | some a => simp at h
        · split at h
          · rw [Option.some.injEq, Prod.mk.injEq] at h
            exact absurd h.1 (by simp)
          · rw [Option.some.injEq, Prod.mk.injEq] at h
            exact h.2.symm
      | split =>
        simp only [allocN] at h
        split at h
        · rw [Option.some.injEq, Prod.mk.injEq] at h
          exact h.2.symm
        · next hfit =>
            split at h
            · -- left child absent: materialize and recurse, which must succeed
              split at h
              · exact absurd h (by simp)
              · next res2 l2 heq =>
                  rw [Option.some.injEq, Prod.mk.injEq] at h
                  have h2 := alloc_free_isSome n o (s / 2) .nil .nil req res2 l2
                    (by rwa [bufNodeNew_true] at heq) (by omega)
                  cases res2 with
                  | none => simp at h2
                  | some a => simp at h
            · -- left child present
              next lty lo ls ll lr =>
                split at h
                · exact absurd h (by simp)
                · exact absurd h (by simp)
                · next l2 heqL =>
                    split at h
                    · -- right child absent: materialize and recurse, must succeed
                      split at h
                      · exact absurd h (by simp)
                      · next res2 r2 heq =>
                          rw [Option.some.injEq, Prod.mk.injEq] at h
                          have h2 := alloc_free_isSome n (o + s / 2) (s / 2) .nil .nil req
                            res2 r2 (by rwa [bufNodeNew_false] at heq) (by omega)
                          cases res2 with
                          | none => simp at h2
                          | some a => simp at h
                    · next rty ro rs rl rr =>
                        split at h
                        · exact absurd h (by simp)
                        · exact absurd h (by simp)
                        · next r2 heqR =>
                            rw [Option.some.injEq, Prod.mk.injEq] at h
                            have hL := ih (.node lty lo ls ll lr) req l2 heqL
                            have hR := ih (.node rty ro rs rl rr) req r2 heqR
                            rw [← h.2, hL, hR]
      | occupied =>
        simp only [allocN] at h
        rw [Option.some.injEq, Prod.mk.injEq] at h
        exact h.2.symm

theorem alloc_mono (fuel : Nat) :
    ∀ (t : Tree) (req : Nat) (x : Option (Nat × Nat × List Dir) × Tree),
      allocN fuel t req = some x → allocN (fuel + 1) t req = some x := by
  induction fuel with
  | zero => intro t req x h; simp [allocN] at h
  | succ n ih =>
    intro t req x h
    cases t with
    | nil => simpa [allocN] using h
    | node ty o s l r =>
      cases ty with
      | free =>
        simp only [allocN] at h
        by_cases h1 : s / 2 ≥ req
        · rw [if_pos h1] at h
          split at h
          · exact absurd h (by simp)
          · next res2 l2 heq =>
              have heq' := ih _ _ _ heq
              generalize hm : n + 1 = m at heq' ⊢
              simp only [allocN]
              rw [if_pos h1, heq']
              exact h
        · rw [if_neg h1] at h
          generalize hm : n + 1 = m
          simp only [allocN]
          rw [if_neg h1]
          exact h
      | split =>
        by_cases h1 : s / 2 < req
        · simp only [allocN] at h
          rw [if_pos h1] at h
          generalize hm : n + 1 = m
          simp only [allocN]
          rw [if_pos h1]
          exact h
        · cases l with
          | nil =>
            simp only [allocN] at h
            rw [if_neg h1] at h
            split at h
            · exact absurd h (by simp)
            · next res2 l2 heq =>
                have heq' := ih _ _ _ heq
                generalize hm : n + 1 = m at heq' ⊢
                simp only [allocN]
                rw [if_neg h1, heq']
                exact h
          | node lty lo ls ll lr =>
            cases r with
            | nil =>
              simp only [allocN] at h
              rw [if_neg h1] at h
              split at h
              · exact absurd h (by simp)
              · next a l2 heqL =>
                  have heqL' := ih _ _ _ heqL
                  generalize hm : n + 1 = m at heqL' ⊢
                  simp only [allocN]
                  rw [if_neg h1, heqL']
                  exact h
              · next l2 heqL =>
                  have heqL' := ih _ _ _ heqL
                  split at h
                  · exact absurd h (by simp)
                  · next res2 r2 heq =>
                      have heq' := ih _ _ _ heq
                      generalize hm : n + 1 = m at heqL' heq' ⊢
                      simp only [allocN]
                      rw [if_neg h1, heqL', heq']
                      exact h
            | node rty ro rs rl rr =>
              simp only [allocN] at h
              rw [if_neg h1] at h
              split at h
              · exact absurd h (by simp)
              · next a l2 heqL =>
                  have heqL' := ih _ _ _ heqL
                  generalize hm : n + 1 = m at heqL' ⊢
                  simp only [allocN]
                  rw [if_neg h1, heqL']
                  exact h
              · next l2 heqL =>
                  have heqL' := ih _ _ _ heqL
                  split at h
                  · exact absurd h (by simp)
                  · next a r2 heqR =>
                      have heqR' := ih _ _ _ heqR
                      generalize hm : n + 1 = m at heqL' heqR' ⊢
                      simp only [allocN]
                      rw [if_neg h1, heqL', heqR']
                      exact h
                  · next r2 heqR =>
                      have heqR' := ih _ _ _ heqR
                      generalize hm : n + 1 = m at heqL' heqR' ⊢
                      simp only [allocN]
                      rw [if_neg h1, heqL', heqR']
                      exact h
      | occupied => simpa [allocN] using h

theorem alloc_mono_le (fuel fuel' : Nat) (hle : fuel ≤ fuel') :
    ∀ (t : Tree) (req : Nat) (x : Option (Nat × Nat × List Dir) × Tree),
      allocN fuel t req = some x → allocN fuel' t req = some x := by
  induction fuel' with
  | zero =>
    intro t req x h
    have : fuel = 0 := by omega
    subst this
    exact h
  | succ m ih =>
    intro t req x h
    rcases Nat.lt_or_ge fuel (m + 1) with hf | hf
    · exact alloc_mono m t req x (ih (by omega) t req x h)
    · have : fuel = m + 1 := by omega
      subst this
      exact h

theorem needed_pos (t : Tree) : 1 ≤ needed t := by
  cases t <;> simp only [needed] <;> omega

theorem alloc_total (fuel : Nat) :
    ∀ (t : Tree) (req : Nat), 1 ≤ req → needed t ≤ fuel →
      (allocN fuel t req).isSome = true := by
  induction fuel with
  | zero =>
    intro t req _ hf
    have := needed_pos t
    omega
  | succ n ih =>
    intro t req hreq hf
    cases t with
    | nil => simp [allocN]
    | node ty o s l r =>
      have hl1 := needed_pos l
      have hr1 := needed_pos r
      simp only [needed] at hf
      cases ty with
      | free =>
        simp only [allocN]
        by_cases h1 : s / 2 ≥ req
        · rw [if_pos h1]
          have hn : needed (bufNodeNew o s true) ≤ n := by
            rw [bufNodeNew_true]
            simp only [needed]
            omega
          have h2 := ih (bufNodeNew o s true) req hreq hn
          rcases hx : allocN n (bufNodeNew o s true) req with _ | ⟨res2, l2⟩
          · rw [hx] at h2; simp at h2
          · simp [hx]
        · rw [if_neg h1]
          by_cases h2 : s ≥ req
          · rw [if_pos h2]; simp
          · rw [if_neg h2]; simp
      | split =>
        simp only [allocN]
        by_cases h1 : s / 2 < req
        · rw [if_pos h1]; simp
        · rw [if_neg h1]
          cases l with
          | nil =>
            have hn : needed (bufNodeNew o s true) ≤ n := by
              rw [bufNodeNew_true]
              simp only [needed]
              omega
            have h2 := ih (bufNodeNew o s true) req hreq hn
            rcases hx : allocN n (bufNodeNew o s true) req with _ | ⟨res2, l2⟩
            · rw [hx] at h2; simp at h2
            · simp [hx]
          | node lty lo ls ll lr =>
            have h2 := ih (.node lty lo ls ll lr) req hreq (by omega)
            rcases hx : allocN n (.node lty lo ls ll lr) req with _ | ⟨res2, l2⟩
            · rw [hx] at h2; simp at h2
            · cases res2 with
              | some a => simp [hx]
              | none =>
                simp only [hx]
                cases r with
                | nil =>
                  have hn : needed (bufNodeNew o s false) ≤ n := by
                    rw [bufNodeNew_false]
                    simp only [needed]
                    omega
                  have h3 := ih (bufNodeNew o s false) req hreq hn
                  rcases hy : allocN n (bufNodeNew o s false) req with _ | ⟨res3, r2⟩
                  · rw [hy] at h3; simp at h3
                  · simp [hy]
                | node rty ro rs rl rr =>
                  have h3 := ih (.node rty ro rs rl rr) req hreq (by omega)
                  rcases hy : allocN n (.node rty ro rs rl rr) req with _ | ⟨res3, r2⟩
                  · rw [hy] at h3; simp at h3
                  · cases res3 <;> simp [hy]
      | occupied => simp [allocN]

theorem occList_nil : occList .nil = [] := rfl

theorem occList_free (o s : Nat) (l r : Tree) :
    occList (.node .free o s l r) = occList l ++ occList r := by
  simp [occList]

theorem occList_split (o s : Nat) (l r : Tree) :
    occList (.node .split o s l r) = occList l ++ occList r := by
  simp [occList]

theorem occList_occ (o s : Nat) (l r : Tree) :
    occList (.node .occupied o s l r) = (o, s) :: (occList l ++ occList r) := by
  simp [occList]

theorem leafy_free_leaf (o s : Nat) : leafyB (.node .free o s .nil .nil) = true := rfl

theorem alloc_leafy (fuel : Nat) :
    ∀ (t : Tree) (req : Nat) (res : Option (Nat × Nat × List Dir)) (t' : Tree),
      leafyB t = true → allocN fuel t req = some (res, t') → leafyB t' = true := by
  induction fuel with
  | zero => intro t req res t' _ h; simp [allocN] at h
  | succ n ih =>
    intro t req res t' ht h
    cases t with
    | nil =>
      simp only [allocN, Option.some.injEq, Prod.mk.injEq] at h
      rw [← h.2]
      rfl
    | node ty o s l r =>
      cases ty with
      | free =>
        rw [leafy_node_iff] at ht
        have hlr : l = .nil ∧ r = .nil := by
          rcases ht.1 with h' | h'
          · exact absurd h' (by simp)
          · exact h'
        simp only [allocN] at h
        by_cases h1 : s / 2 ≥ req
        · rw [if_pos h1] at h
          split at h
          · exact absurd h (by simp)
          · next res2 l2 heq =>
              rw [Option.some.injEq, Prod.mk.injEq] at h
              rw [← h.2]
              rw [leafy_node_iff]
              refine ⟨Or.inl rfl, ?_, ht.2.2⟩
              exact ih _ req res2 l2 (by rw [bufNodeNew_true]; rfl) heq
        · rw [if_neg h1] at h
          by_cases h2 : s ≥ req
          · rw [if_pos h2, Option.some.injEq, Prod.mk.injEq] at h
            rw [← h.2, hlr.1, hlr.2]
            rfl
          · rw [if_neg h2, Option.some.injEq, Prod.mk.injEq] at h
            rw [← h.2, hlr.1, hlr.2]
            rfl
      | split =>
        rw [leafy_node_iff] at ht
        by_cases h1 : s / 2 < req
        · simp only [allocN] at h
          rw [if_pos h1, Option.some.injEq, Prod.mk.injEq] at h
          rw [← h.2]
          rw [leafy_node_iff]
          exact ⟨Or.inl rfl, ht.2.1, ht.2.2⟩
        · cases l with
          | nil =>
            simp only [allocN] at h
            rw [if_neg h1] at h
            split at h
            · exact absurd h (by simp)
            · next res2 l2 heq =>
                rw [Option.some.injEq, Prod.mk.injEq] at h
                rw [← h.2]
                rw [leafy_node_iff]
                refine ⟨Or.inl rfl, ?_, ht.2.2⟩
                exact ih _ req res2 l2 (by rw [bufNodeNew_true]; rfl) heq
          | node lty lo ls ll lr =>
            cases r with
            | nil =>
              simp only [allocN] at h
              rw [if_neg h1] at h
              split at h
              · exact absurd h (by simp)
              · next a l2 heqL =>
                  rw [Option.some.injEq, Prod.mk.injEq] at h
                  rw [← h.2]
                  rw [leafy_node_iff]
                  exact ⟨Or.inl rfl, ih _ req (some a) l2 ht.2.1 heqL, ht.2.2⟩
              · next l2 heqL =>
                  have hL := alloc_fail_eq n _ req l2 heqL
                  subst hL
                  split at h
                  · exact absurd h (by simp)
                  · next res2 r2 heq =>
                      rw [Option.some.injEq, Prod.mk.injEq] at h
                      rw [← h.2]
                      rw [leafy_node_iff]
                      refine ⟨Or.inl rfl, ht.2.1, ?_⟩
                      exact ih _ req res2 r2 (by rw [bufNodeNew_false]; rfl) heq
            | node rty ro rs rl rr =>
              simp only [allocN] at h
              rw [if_neg h1] at h
              split at h
              · exact absurd h (by simp)
              · next a l2 heqL =>
                  rw [Option.some.injEq, Prod.mk.injEq] at h
                  rw [← h.2]
                  rw [leafy_node_iff]
                  exact ⟨Or.inl rfl, ih _ req (some a) l2 ht.2.1 heqL, ht.2.2⟩
              · next l2 heqL =>
                  have hL := alloc_fail_eq n _ req l2 heqL
                  subst hL
                  split at h
                  · exact absurd h (by simp)
                  · next a r2 heqR =>
                      rw [Option.some.injEq, Prod.mk.injEq] at h
                      rw [← h.2]
                      rw [leafy_node_iff]
                      exact ⟨Or.inl rfl, ht.2.1, ih _ req (some a) r2 ht.2.2 heqR⟩
                  · next r2 heqR =>
                      rw [Option.some.injEq, Prod.mk.injEq] at h
                      rw [← h.2]
                      rw [leafy_node_iff]
                      exact ⟨Or.inl rfl, ht.2.1, ih _ req none r2 ht.2.2 heqR⟩
      | occupied =>
        simp only [allocN, Option.some.injEq, Prod.mk.injEq] at h
        rw [← h.2]
        exact ht

theorem geom_free_leaf (off sz : Nat) :
    geomB off (sz / 2) (bufNodeNew off sz true) = true := by
  rw [bufNodeNew_true, geom_node_iff]
  exact ⟨rfl, rfl, rfl, rfl⟩

theorem geom_free_leaf_r (off sz : Nat) :
    geomB (off + sz / 2) (sz / 2) (bufNodeNew off sz false) = true := by
  rw [bufNodeNew_false, geom_node_iff]
  exact ⟨rfl, rfl, rfl, rfl⟩

theorem alloc_geom (fuel : Nat) :
    ∀ (t : Tree) (req : Nat) (res : Option (Nat × Nat × List Dir)) (t' : Tree) (off sz : Nat),
      geomB off sz t = true → allocN fuel t req = some (res, t') → geomB off sz t' = true := by
  induction fuel with
  | zero => intro t req res t' off sz _ h; simp [allocN] at h
  | succ n ih =>
    intro t req res t' off sz hg h
    cases t with
    | nil =>
      simp only [allocN, Option.some.injEq, Prod.mk.injEq] at h
      rw [← h.2]
      rfl
    | node ty o s l r =>
      have hgp := (geom_node_iff off sz ty o s l r).mp hg
      obtain ⟨hg1, hg2, hgl, hgr⟩ := hgp
      subst hg1
      subst hg2
      cases ty with
      | free =>
        simp only [allocN] at h
        by_cases h1 : s / 2 ≥ req
        case pos =>
          rw [if_pos h1] at h
          split at h
          · exact absurd h (by simp)
          · next res2 l2 heq =>
              rw [Option.some.injEq, Prod.mk.injEq] at h
              rw [← h.2, geom_node_iff]
              exact ⟨rfl, rfl, ih _ req res2 l2 _ _ (geom_free_leaf o s) heq, hgr⟩
        case neg =>
          rw [if_neg h1] at h
          by_cases h2 : s ≥ req
          · rw [if_pos h2, Option.some.injEq, Prod.mk.injEq] at h
            rw [← h.2, geom_node_iff]
            exact ⟨rfl, rfl, hgl, hgr⟩
          · rw [if_neg h2, Option.some.injEq, Prod.mk.injEq] at h
            rw [← h.2, geom_node_iff]
            exact ⟨rfl, rfl, hgl, hgr⟩
      | split =>
        by_cases h1 : s / 2 < req
        · simp only [allocN] at h
          rw [if_pos h1, Option.some.injEq, Prod.mk.injEq] at h
          rw [← h.2, geom_node_iff]
          exact ⟨rfl, rfl, hgl, hgr⟩
        · cases l with
          | nil =>
            simp only [allocN] at h
            rw [if_neg h1] at h
            split at h
            · exact absurd h (by simp)
            · next res2 l2 heq =>
                rw [Option.some.injEq, Prod.mk.injEq] at h
                rw [← h.2, geom_node_iff]
                exact ⟨rfl, rfl, ih _ req res2 l2 _ _ (geom_free_leaf o s) heq, hgr⟩
          | node lty lo ls ll lr =>
            cases r with
            | nil =>
              simp only [allocN] at h
              rw [if_neg h1] at h
              split at h
              · exact absurd h (by simp)
              · next a l2 heqL =>
                  rw [Option.some.injEq, Prod.mk.injEq] at h
                  rw [← h.2, geom_node_iff]
                  exact ⟨rfl, rfl, ih _ req (some a) l2 _ _ hgl heqL, hgr⟩
              · next l2 heqL =>
                  have hL := alloc_fail_eq n _ req l2 heqL
                  subst hL
                  split at h
                  · exact absurd h (by simp)
                  · next res2 r2 heq =>
                      rw [Option.some.injEq, Prod.mk.injEq] at h
                      rw [← h.2, geom_node_iff]
                      exact ⟨rfl, rfl, hgl, ih _ req res2 r2 _ _ (geom_free_leaf_r o s) heq⟩
            | node rty ro rs rl rr =>
              simp only [allocN] at h
              rw [if_neg h1] at h
              split at h
              · exact absurd h (by simp)
              · next a l2 heqL =>
                  rw [Option.some.injEq, Prod.mk.injEq] at h
                  rw [← h.2, geom_node_iff]
                  exact ⟨rfl, rfl, ih _ req (some a) l2 _ _ hgl heqL, hgr⟩
              · next l2 heqL =>
                  have hL := alloc_fail_eq n _ req l2 heqL
                  subst hL
                  split at h
                  · exact absurd h (by simp)
                  · next a r2 heqR =>
                      rw [Option.some.injEq, Prod.mk.injEq] at h
                      rw [← h.2, geom_node_iff]
                      exact ⟨rfl, rfl, hgl, ih _ req (some a) r2 _ _ hgr heqR⟩
                  · next r2 heqR =>
                      rw [Option.some.injEq, Prod.mk.injEq] at h
                      rw [← h.2, geom_node_iff]
                      exact ⟨rfl, rfl, hgl, ih _ req none r2 _ _ hgr heqR⟩
      | occupied =>
        simp only [allocN, Option.some.injEq, Prod.mk.injEq] at h
        rw [← h.2, geom_node_iff]
        exact ⟨rfl, rfl, hgl, hgr⟩

theorem occList_fresh_leaf (o s : Nat) (b : Bool) : occList (bufNodeNew o s b) = [] := by
  cases b <;> rfl

theorem alloc_occ (fuel : Nat) :
    ∀ (t : Tree) (req : Nat) (a : Nat × Nat × List Dir) (t' : Tree),
      leafyB t = true → allocN fuel t req = some (some a, t') →
      List.Perm (occList t') ((a.1, a.2.1) :: occList t) := by
  induction fuel with
  | zero => intro t req a t' _ h; simp [allocN] at h
  | succ n ih =>
    intro t req a t' ht h
    cases t with
    | nil => simp [allocN] at h
    | node ty o s l r =>
      cases ty with
      | free =>
        rw [leafy_node_iff] at ht
        have hlr : l = .nil ∧ r = .nil := by
          rcases ht.1 with h' | h'
          · exact absurd h' (by simp)
          · exact h'
        obtain ⟨rfl, rfl⟩ := hlr
        simp only [allocN] at h
        by_cases h1 : s / 2 ≥ req
        · rw [if_pos h1] at h
          split at h
          · exact absurd h (by simp)
          · next res2 l2 heq =>
              cases res2 with
              | none => simp at h
              | some a2 =>
                rw [Option.map_some', Option.some.injEq, Prod.mk.injEq,
                  Option.some.injEq] at h
                obtain ⟨ha, ht'⟩ := h
                have hperm := ih _ req a2 l2 (by rw [bufNodeNew_true]; rfl) heq
                rw [occList_fresh_leaf] at hperm
                rw [← ht', ← ha]
                simp only [occList_split, occList_free, occList_nil, List.append_nil]
                exact hperm
        · rw [if_neg h1] at h
          by_cases h2 : s ≥ req
          · rw [if_pos h2, Option.some.injEq, Prod.mk.injEq, Option.some.injEq] at h
            obtain ⟨ha, ht'⟩ := h
            rw [← ht', ← ha]
            simp [occList_occ, occList_free, occList_nil]
          · rw [if_neg h2] at h
            simp at h
      | split =>
        rw [leafy_node_iff] at ht
        by_cases h1 : s / 2 < req
        · simp only [allocN] at h
          rw [if_pos h1] at h
          simp at h
        · cases l with
          | nil =>
            simp only [allocN] at h
            rw [if_neg h1] at h
            split at h
            · exact absurd h (by simp)
            · next res2 l2 heq =>
                cases res2 with
                | none => simp at h
                | some a2 =>
                  rw [Option.map_some', Option.some.injEq, Prod.mk.injEq,
                    Option.some.injEq] at h
                  obtain ⟨ha, ht'⟩ := h
                  have hperm := ih _ req a2 l2 (by rw [bufNodeNew_true]; rfl) heq
                  rw [occList_fresh_leaf] at hperm
                  rw [← ht', ← ha]
                  simp only [occList_split, occList_nil, List.nil_append]
                  exact hperm.append_right (occList r)
          | node lty lo ls ll lr =>
            cases r with
            | nil =>
              simp only [allocN] at h
              rw [if_neg h1] at h
              split at h
              · exact absurd h (by simp)
              · next a2 l2 heqL =>
                  rw [Option.some.injEq, Prod.mk.injEq, Option.some.injEq] at h
                  obtain ⟨ha, ht'⟩ := h
                  have hperm := ih _ req a2 l2 ht.2.1 heqL
                  rw [← ht', ← ha]
                  simp only [occList_split, occList_nil, List.append_nil]
                  exact hperm
              · next l2 heqL =>
                  have hL := alloc_fail_eq n _ req l2 heqL
                  subst hL
                  split at h
                  · exact absurd h (by simp)
                  · next res2 r2 heq =>
                      cases res2 with
                      | none => simp at h
                      | some a2 =>
                        rw [Option.map_some', Option.some.injEq, Prod.mk.injEq,
                          Option.some.injEq] at h
                        obtain ⟨ha, ht'⟩ := h
                        have hperm := ih _ req a2 r2 (by rw [bufNodeNew_false]; rfl) heq
                        rw [occList_fresh_leaf] at hperm
                        rw [← ht', ← ha]
                        simp only [occList_split, occList_nil, List.append_nil]
                        simpa using (hperm.append_left
                          (occList (.node lty lo ls ll lr))).trans List.perm_middle
            | node rty ro rs rl rr =>
              simp only [allocN] at h
              rw [if_neg h1] at h
              split at h
              · exact absurd h (by simp)
              · next a2 l2 heqL =>
                  rw [Option.some.injEq, Prod.mk.injEq, Option.some.injEq] at h
                  obtain ⟨ha, ht'⟩ := h
                  have hperm := ih _ req a2 l2 ht.2.1 heqL
                  rw [← ht', ← ha]
                  simp only [occList_split]
                  exact (hperm.append_right _).trans (by rw [List.cons_append])
              · next l2 heqL =>
                  have hL := alloc_fail_eq n _ req l2 heqL
                  subst hL
                  split at h
                  · exact absurd h (by simp)
                  · next a2 r2 heqR =>
                      rw [Option.some.injEq, Prod.mk.injEq, Option.some.injEq] at h
                      obtain ⟨ha, ht'⟩ := h
                      have hperm := ih _ req a2 r2 ht.2.2 heqR
                      rw [← ht', ← ha]
                      simp only [occList_split]
                      exact ((hperm.append_left _).trans List.perm_middle)
                  · next r2 heqR =>
                      simp at h
      | occupied => simp [allocN] at h

theorem nodeInfo_some_iff (t : Tree) (p : List Dir) (ty : NTy) (o s : Nat) :
    nodeInfo t p = some (ty, o, s) ↔ ∃ l r, getSub t p = .node ty o s l r := by
  unfold nodeInfo
  cases hg : getSub t p <;> simp

theorem nodeInfo_none_iff (t : Tree) (p : List Dir) :
    nodeInfo t p = none ↔ getSub t p = .nil := by
  unfold nodeInfo
  cases hg : getSub t p <;> simp

theorem nupd_badPath (rq : List Dir) (t : Tree)
    (hget : getSub t rq.reverse = .nil) :
    nodeUpdR rq t = .ub .badPath := by
  cases rq <;> rw [nodeUpdR, hget]

theorem nupd_free_root (t : Tree) (o s : Nat) (l r : Tree)
    (hget : getSub t ([] : List Dir).reverse = .node .free o s l r) :
    nodeUpdR [] t = .ok t := by
  rw [nodeUpdR, hget]

theorem nupd_free_cons (t : Tree) (e : Dir) (rest : List Dir) (o s : Nat) (l r : Tree)
    (hget : getSub t (e :: rest).reverse = .node .free o s l r) :
    nodeUpdR (e :: rest) t = nodeUpdR rest (setSub t (e :: rest).reverse .nil) := by
  rw [nodeUpdR, hget]

theorem nupd_split_co_root (t : Tree) (o s : Nat) (l r : Tree)
    (hget : getSub t ([] : List Dir).reverse = .node .split o s l r)
    (hco : (nilOrFree l && nilOrFree r) = true) :
    nodeUpdR [] t = .ub .nullParent := by
  rw [nodeUpdR, hget]
  simp [hco]

theorem nupd_split_co_cons (t : Tree) (e : Dir) (rest : List Dir) (o s : Nat) (l r : Tree)
    (hget : getSub t (e :: rest).reverse = .node .split o s l r)
    (hco : (nilOrFree l && nilOrFree r) = true) :
    nodeUpdR (e :: rest) t = nodeUpdR rest (setSub t (e :: rest).reverse .nil) := by
  rw [nodeUpdR, hget]
  simp [hco]

theorem nupd_split_noco (rq : List Dir) (t : Tree) (o s : Nat) (l r : Tree)
    (hget : getSub t rq.reverse = .node .split o s l r)
    (hco : (nilOrFree l && nilOrFree r) = false) :
    nodeUpdR rq t = .ok t := by
  cases rq <;> (rw [nodeUpdR, hget]; simp [hco])

theorem nupd_occ (rq : List Dir) (t : Tree) (o s : Nat) (l r : Tree)
    (hget : getSub t rq.reverse = .node .occupied o s l r) :
    nodeUpdR rq t = .ok t := by
  cases rq <;> rw [nodeUpdR, hget]

theorem nu_pres (rq : List Dir) :
    ∀ (t t' : Tree) (off sz : Nat), leafyB t = true → geomB off sz t = true →
      nodeUpdR rq t = .ok t' → leafyB t' = true ∧ geomB off sz t' = true := by
  induction rq with
  | nil =>
    intro t t' off sz hl hg hrun
    cases hget : getSub t ([] : List Dir).reverse with
    | nil =>
      rw [nupd_badPath _ _ hget] at hrun
      exact absurd hrun (by simp)
    | node ty o s l r =>
      cases ty with
      | free =>
        rw [nupd_free_root _ _ _ _ _ hget, FreeRes.ok.injEq] at hrun
        subst hrun
        exact ⟨hl, hg⟩
      | split =>
        cases hco : (nilOrFree l && nilOrFree r) with
        | true =>
          rw [nupd_split_co_root _ _ _ _ _ hget hco] at hrun
          exact absurd hrun (by simp)
        | false =>
          rw [nupd_split_noco _ _ _ _ _ _ hget hco, FreeRes.ok.injEq] at hrun
          subst hrun
          exact ⟨hl, hg⟩
      | occupied =>
        rw [nupd_occ _ _ _ _ _ _ hget, FreeRes.ok.injEq] at hrun
        subst hrun
        exact ⟨hl, hg⟩
  | cons e rest ih =>
    intro t t' off sz hl hg hrun
    cases hget : getSub t (e :: rest).reverse with
    | nil =>
      rw [nupd_badPath _ _ hget] at hrun
      exact absurd hrun (by simp)
    | node ty o s l r =>
      have hne : getSub t (e :: rest).reverse ≠ .nil := by rw [hget]; simp
      cases ty with
      | free =>
        rw [nupd_free_cons _ _ _ _ _ _ _ hget] at hrun
        exact ih _ t' off sz (leafy_setSub _ _ .nil hl hne rfl)
          (geom_setSub_nil _ _ off sz hg) hrun
      | split =>
        cases hco : (nilOrFree l && nilOrFree r) with
        | true =>
          rw [nupd_split_co_cons _ _ _ _ _ _ _ hget hco] at hrun
          exact ih _ t' off sz (leafy_setSub _ _ .nil hl hne rfl)
            (geom_setSub_nil _ _ off sz hg) hrun
        | false =>
          rw [nupd_split_noco _ _ _ _ _ _ hget hco, FreeRes.ok.injEq] at hrun
          subst hrun
          exact ⟨hl, hg⟩
      | occupied =>
        rw [nupd_occ _ _ _ _ _ _ hget, FreeRes.ok.injEq] at hrun
        subst hrun
        exact ⟨hl, hg⟩

theorem nu_none (rq : List Dir) :
    ∀ (t t' : Tree), nodeUpdR rq t = .ok t' →
      ∀ p, nodeInfo t p = none → nodeInfo t' p = none := by
  induction rq with
  | nil =>
    intro t t' hrun p hp
    cases hget : getSub t ([] : List Dir).reverse with
    | nil =>
      rw [nupd_badPath _ _ hget] at hrun
      exact absurd hrun (by simp)
    | node ty o s l r =>
      cases ty with
      | free =>
        rw [nupd_free_root _ _ _ _ _ hget, FreeRes.ok.injEq] at hrun
        subst hrun
        exact hp
      | split =>
        cases hco : (nilOrFree l && nilOrFree r) with
        | true =>
          rw [nupd_split_co_root _ _ _ _ _ hget hco] at hrun
          exact absurd hrun (by simp)
        | false =>
          rw [nupd_split_noco _ _ _ _ _ _ hget hco, FreeRes.ok.injEq] at hrun
          subst hrun
          exact hp
      | occupied =>
        rw [nupd_occ _ _ _ _ _ _ hget, FreeRes.ok.injEq] at hrun
        subst hrun
        exact hp
  | cons e rest ih =>
    intro t t' hrun p hp
    cases hget : getSub t (e :: rest).reverse with
    | nil =>
      rw [nupd_badPath _ _ hget] at hrun
      exact absurd hrun (by simp)
    | node ty o s l r =>
      have hne : getSub t (e :: rest).reverse ≠ .nil := by rw [hget]; simp
      have hstep : nodeInfo (setSub t (e :: rest).reverse .nil) p = none := by
        rw [info_remove _ _ _ hne]
        by_cases hpre : pre (e :: rest).reverse p = true
        · rw [if_pos hpre]
        · rw [if_neg hpre]
          exact hp
      cases ty with
      | free =>
        rw [nupd_free_cons _ _ _ _ _ _ _ hget] at hrun
        exact ih _ t' hrun p hstep
      | split =>
        cases hco : (nilOrFree l && nilOrFree r) with
        | true =>
          rw [nupd_split_co_cons _ _ _ _ _ _ _ hget hco] at hrun
          exact ih _ t' hrun p hstep
        | false =>
          rw [nupd_split_noco _ _ _ _ _ _ hget hco, FreeRes.ok.injEq] at hrun
          subst hrun
          exact hp
      | occupied =>
        rw [nupd_occ _ _ _ _ _ _ hget, FreeRes.ok.injEq] at hrun
        subst hrun
        exact hp

theorem nodeInfo_eq (t : Tree) (p : List Dir) (ty : NTy) (o s : Nat) (l r : Tree)
    (h : getSub t p = .node ty o s l r) : nodeInfo t p = some (ty, o, s) := by
  simp [nodeInfo, h]

theorem below_cases (t : Tree) (q : List Dir) (ty : NTy) (qo qs : Nat) (ql qr : Tree)
    (hl : leafyB t = true) (hq : getSub t q = .node ty qo qs ql qr)
    (helig : ty = .free ∨ (ty = .split ∧ nilOrFree ql = true ∧ nilOrFree qr = true)) :
    ∀ x : List Dir, pre q x = true →
      x = q ∨ (getSub t x = .nil ∨ ∃ fo fs, getSub t x = .node .free fo fs .nil .nil) := by
  intro x hpre
  obtain ⟨s, rfl⟩ := (pre_iff q x).mp hpre
  cases s with
  | nil => left; simp
  | cons e s2 =>
    right
    have hsub := leafy_getSub q t hl
    rw [hq, leafy_node_iff] at hsub
    rw [getSub_append, hq]
    rcases helig with rfl | ⟨rfl, hql, hqr⟩
    · have hlr : ql = .nil ∧ qr = .nil := by
        rcases hsub.1 with h | h
        · exact absurd h (by simp)
        · exact h
      obtain ⟨rfl, rfl⟩ := hlr
      left
      cases e <;> simp [getSub_cons, getSub_nil]
    · cases e with
      | l =>
        simp only [getSub_cons]
        cases ql with
        | nil => left; simp [getSub_nil]
        | node qlty qlo qls qll qlr =>
          cases qlty with
          | free =>
            have hsubl := hsub.2.1
            rw [leafy_node_iff] at hsubl
            have hlr : qll = .nil ∧ qlr = .nil := by
              rcases hsubl.1 with h | h
              · exact absurd h (by simp)
              · exact h
            obtain ⟨rfl, rfl⟩ := hlr
            cases s2 with
            | nil => right; exact ⟨qlo, qls, rfl⟩
            | cons e2 s3 =>
              left
              cases e2 <;> simp [getSub_cons, getSub_nil]
          | split => exact absurd hql (by simp [nilOrFree])
          | occupied => exact absurd hql (by simp [nilOrFree])
      | r =>
        simp only [getSub_cons]
        cases qr with
        | nil => left; simp [getSub_nil]
        | node qrty qro qrs qrl qrr =>
          cases qrty with
          | free =>
            have hsubr := hsub.2.2
            rw [leafy_node_iff] at hsubr
            have hlr : qrl = .nil ∧ qrr = .nil := by
              rcases hsubr.1 with h | h
              · exact absurd h (by simp)
              · exact h
            obtain ⟨rfl, rfl⟩ := hlr
            cases s2 with
            | nil => right; exact ⟨qro, qrs, rfl⟩
            | cons e2 s3 =>
              left
              cases e2 <;> simp [getSub_cons, getSub_nil]
          | split => exact absurd hqr (by simp [nilOrFree])
          | occupied => exact absurd hqr (by simp [nilOrFree])

theorem not_below_target (t : Tree) (p : List Dir) (tyP : NTy) (oP sP : Nat)
    (hp : nodeInfo t p = some (tyP, oP, sP)) (hne : tyP ≠ .free) :
    ¬(getSub t p = .nil ∨ ∃ fo fs, getSub t p = .node .free fo fs .nil .nil) := by
  rintro (hnil | ⟨fo, fs, hfree⟩)
  · rw [(nodeInfo_none_iff t p).mpr hnil] at hp
    exact absurd hp (by simp)
  · rw [nodeInfo_eq t p .free fo fs .nil .nil hfree] at hp
    rw [Option.some.injEq, Prod.mk.injEq] at hp
    exact hne hp.1.symm

theorem nu_keep (rq : List Dir) :
    ∀ (t t' : Tree) (p : List Dir) (d : Dir) (o s o2 s2 : Nat),
      leafyB t = true →
      nodeInfo t p = some (.split, o, s) →
      nodeInfo t (p ++ [d]) = some (.occupied, o2, s2) →
      nodeUpdR rq t = .ok t' →
      leafyB t' = true ∧ nodeInfo t' p = some (.split, o, s) ∧
        nodeInfo t' (p ++ [d]) = some (.occupied, o2, s2) := by
  induction rq with
  | nil =>
    intro t t' p d o s o2 s2 hl hp hd hrun
    cases hget : getSub t ([] : List Dir).reverse with
    | nil =>
      rw [nupd_badPath _ _ hget] at hrun
      exact absurd hrun (by simp)
    | node ty qo qs ql qr =>
      cases ty with
      | free =>
        rw [nupd_free_root _ _ _ _ _ hget, FreeRes.ok.injEq] at hrun
        subst hrun
        exact ⟨hl, hp, hd⟩
      | split =>
        cases hco : (nilOrFree ql && nilOrFree qr) with
        | true =>
          rw [nupd_split_co_root _ _ _ _ _ hget hco] at hrun
          exact absurd hrun (by simp)
        | false =>
          rw [nupd_split_noco _ _ _ _ _ _ hget hco, FreeRes.ok.injEq] at hrun
          subst hrun
          exact ⟨hl, hp, hd⟩
      | occupied =>
        rw [nupd_occ _ _ _ _ _ _ hget, FreeRes.ok.injEq] at hrun
        subst hrun
        exact ⟨hl, hp, hd⟩
  | cons e rest ih =>
    intro t t' p d o s o2 s2 hl hp hd hrun
    cases hget : getSub t (e :: rest).reverse with
    | nil =>
      rw [nupd_badPath _ _ hget] at hrun
      exact absurd hrun (by simp)
    | node ty qo qs ql qr =>
      have hne : getSub t (e :: rest).reverse ≠ .nil := by rw [hget]; simp
      cases ty with
      | free =>
        have hprep : ¬ pre (e :: rest).reverse p = true := by
          intro hpre
          rcases below_cases t _ .free qo qs ql qr hl hget (Or.inl rfl) p hpre with
            heq | hb
          · subst heq
            rw [nodeInfo_eq _ _ _ _ _ _ _ hget] at hp
            exact absurd hp (by simp)
          · exact not_below_target t p .split o s hp (by simp) hb
        have hprepd : ¬ pre (e :: rest).reverse (p ++ [d]) = true := by
          intro hpre
          rcases below_cases t _ .free qo qs ql qr hl hget (Or.inl rfl) (p ++ [d]) hpre with
            heq | hb
          · rw [← heq] at hget
            rw [nodeInfo_eq _ _ _ _ _ _ _ hget] at hd
            exact absurd hd (by simp)
          · exact not_below_target t (p ++ [d]) .occupied o2 s2 hd (by simp) hb
        rw [nupd_free_cons _ _ _ _ _ _ _ hget] at hrun
        have hstep_p : nodeInfo (setSub t (e :: rest).reverse .nil) p =
            some (.split, o, s) := by
          rw [info_remove _ _ _ hne, if_neg hprep]
          exact hp
        have hstep_d : nodeInfo (setSub t (e :: rest).reverse .nil) (p ++ [d]) =
            some (.occupied, o2, s2) := by
          rw [info_remove _ _ _ hne, if_neg hprepd]
          exact hd
        exact ih _ t' p d o s o2 s2 (leafy_setSub _ _ .nil hl hne rfl) hstep_p hstep_d hrun
      | split =>
        cases hco : (nilOrFree ql && nilOrFree qr) with
        | false =>
          rw [nupd_split_noco _ _ _ _ _ _ hget hco, FreeRes.ok.injEq] at hrun
          subst hrun
          exact ⟨hl, hp, hd⟩
        | true =>
          have hco2 := hco
          rw [Bool.and_eq_true] at hco2
          have hprep : ¬ pre (e :: rest).reverse p = true := by
            intro hpre
            rcases below_cases t _ .split qo qs ql qr hl hget
              (Or.inr ⟨rfl, hco2.1, hco2.2⟩) p hpre with heq | hb
            · subst heq
              obtain ⟨c1, c2, hdget⟩ :=
                (nodeInfo_some_iff t _ .occupied o2 s2).mp hd
              rw [getSub_append, hget] at hdget
              cases d with
              | l =>
                simp only [getSub_cons, getSub] at hdget
                rw [hdget] at hco2
                simp [nilOrFree] at hco2
              | r =>
                simp only [getSub_cons, getSub] at hdget
                rw [hdget] at hco2
                simp [nilOrFree] at hco2
            · exact not_below_target t p .split o s hp (by simp) hb
          have hprepd : ¬ pre (e :: rest).reverse (p ++ [d]) = true := by
            intro hpre
            rcases below_cases t _ .split qo qs ql qr hl hget
              (Or.inr ⟨rfl, hco2.1, hco2.2⟩) (p ++ [d]) hpre with heq | hb
            · rw [← heq] at hget
              rw [nodeInfo_eq _ _ _ _ _ _ _ hget] at hd
              exact absurd hd (by simp)
            · exact not_below_target t (p ++ [d]) .occupied o2 s2 hd (by simp) hb
          rw [nupd_split_co_cons _ _ _ _ _ _ _ hget hco] at hrun
          have hstep_p : nodeInfo (setSub t (e :: rest).reverse .nil) p =
              some (.split, o, s) := by
            rw [info_remove _ _ _ hne, if_neg hprep]
            exact hp
          have hstep_d : nodeInfo (setSub t (e :: rest).reverse .nil) (p ++ [d]) =
              some (.occupied, o2, s2) := by
            rw [info_remove _ _ _ hne, if_neg hprepd]
            exact hd
          exact ih _ t' p d o s o2 s2 (leafy_setSub _ _ .nil hl hne rfl) hstep_p hstep_d hrun
      | occupied =>
        rw [nupd_occ _ _ _ _ _ _ hget, FreeRes.ok.injEq] at hrun
        subst hrun
        exact ⟨hl, hp, hd⟩

theorem geom_free_node (o s : Nat) : geomB o s (.node .free o s .nil .nil) = true := by
  rw [geom_node_iff]
  exact ⟨rfl, rfl, rfl, rfl⟩

theorem reach_inv (T : Nat) (t : Tree) (h : Reachable T t) :
    leafyB t = true ∧ geomB 0 T t = true := by
  induction h with
  | base =>
    refine ⟨rfl, ?_⟩
    rw [freshBuf, geom_node_iff]
    exact ⟨rfl, rfl, rfl, rfl⟩
  | stepAlloc hReach hreq halloc ih =>
    exact ⟨alloc_leafy _ _ _ _ _ ih.1 halloc, alloc_geom _ _ _ _ _ _ _ ih.2 halloc⟩
  | stepFree hReach hocc hfree ih =>
    next t p o s t' =>
      obtain ⟨l, r, hget⟩ := (nodeInfo_some_iff _ _ _ _ _).mp hocc
      have hsub := leafy_getSub p t ih.1
      rw [hget, leafy_node_iff] at hsub
      have hlr : l = .nil ∧ r = .nil := by
        rcases hsub.1 with h' | h'
        · exact absurd h' (by simp)
        · exact h'
      obtain ⟨rfl, rfl⟩ := hlr
      rw [buddyFree] at hfree
      split at hfree
      · next heq =>
          rw [heq] at hget
          exact absurd hget (by simp)
      · next ty2 o2 s2 l2 r2 heq =>
          have hcomb := heq.symm.trans hget
          rw [Tree.node.injEq] at hcomb
          obtain ⟨-, ho2, hs2, hl2, hr2⟩ := hcomb
          subst ho2
          subst hs2
          subst hl2
          subst hr2
          have hne : getSub t p ≠ .nil := by rw [hget]; simp
          have hleafy2 : leafyB (setSub t p (.node .free o2 s2 .nil .nil)) = true :=
            leafy_setSub p t _ ih.1 hne rfl
          have hgeom2 : geomB 0 T (setSub t p (.node .free o2 s2 .nil .nil)) = true :=
            geom_setSub_node p t 0 T .occupied o2 s2 .nil .nil _ ih.2 hget
              (geom_free_node o2 s2)
          exact nu_pres p.reverse _ t' 0 T hleafy2 hgeom2 hfree

theorem occ_disj (t : Tree) :
    ∀ (off sz : Nat), geomB off sz t = true → leafyB t = true →
      List.Pairwise disjointR (occList t) ∧
        ∀ a ∈ occList t, off ≤ a.1 ∧ a.1 + a.2 ≤ off + sz := by
  induction t with
  | nil =>
    intro off sz _ _
    exact ⟨by simp [occList_nil], by simp [occList_nil]⟩
  | node ty o s l r ihl ihr =>
    intro off sz hg hl
    rw [geom_node_iff] at hg
    obtain ⟨rfl, rfl, hgl, hgr⟩ := hg
    rw [leafy_node_iff] at hl
    obtain ⟨IHlp, IHlb⟩ := ihl o (s / 2) hgl hl.2.1
    obtain ⟨IHrp, IHrb⟩ := ihr (o + s / 2) (s / 2) hgr hl.2.2
    have hcomb : List.Pairwise disjointR (occList l ++ occList r) ∧
        ∀ a ∈ occList l ++ occList r, o ≤ a.1 ∧ a.1 + a.2 ≤ o + s := by
      constructor
      · rw [List.pairwise_append]
        refine ⟨IHlp, IHrp, ?_⟩
        intro a ha b hb
        have h1 := IHlb a ha
        have h2 := IHrb b hb
        left
        omega
      · intro a ha
        rcases List.mem_append.mp ha with ha | ha
        · have h1 := IHlb a ha
          omega
        · have h1 := IHrb a ha
          omega
    cases ty with
    | free =>
      rw [occList_free]
      exact hcomb
    | split =>
      rw [occList_split]
      exact hcomb
    | occupied =>
      have hlr : l = .nil ∧ r = .nil := by
        rcases hl.1 with h' | h'
        · exact absurd h' (by simp)
        · exact h'
      obtain ⟨rfl, rfl⟩ := hlr
      rw [occList_occ]
      refine ⟨?_, ?_⟩
      · simp [occList_nil]
      · intro a ha
        simp [occList_nil] at ha
        subst ha
        omega

theorem allocSeq_cons_none (t : Tree) (req : Nat) (reqs : List Nat)
    (h : allocTop t req = none) : allocSeq t (req :: reqs) = allocSeq t reqs := by
  rw [allocSeq, h]

theorem allocSeq_cons_fail (t : Tree) (req : Nat) (reqs : List Nat) (t2 : Tree)
    (h : allocTop t req = some (none, t2)) : allocSeq t (req :: reqs) = allocSeq t2 reqs := by
  rw [allocSeq, h]

theorem allocSeq_cons_ok (t : Tree) (req : Nat) (reqs : List Nat)
    (a : Nat × Nat × List Dir) (t2 : Tree)
    (h : allocTop t req = some (some a, t2)) :
    allocSeq t (req :: reqs) =
      ((a.1, a.2.1) :: (allocSeq t2 reqs).1, (allocSeq t2 reqs).2) := by
  rw [allocSeq, h]

theorem seq_inv (reqs : List Nat) :
    ∀ (t : Tree) (off sz : Nat), leafyB t = true → geomB off sz t = true →
      leafyB (allocSeq t reqs).2 = true ∧ geomB off sz (allocSeq t reqs).2 = true ∧
        List.Perm (occList (allocSeq t reqs).2) ((allocSeq t reqs).1 ++ occList t) := by
  induction reqs with
  | nil =>
    intro t off sz hl hg
    exact ⟨hl, hg, by simp [allocSeq]⟩
  | cons req reqs ih =>
    intro t off sz hl hg
    rcases hx : allocTop t req with _ | ⟨res, t2⟩
    · rw [allocSeq_cons_none t req reqs hx]
      exact ih t off sz hl hg
    · cases res with
      | none =>
        have ht2 : t2 = t := alloc_fail_eq (needed t) t req t2 hx
        rw [allocSeq_cons_fail t req reqs t2 hx, ht2]
        exact ih t off sz hl hg
      | some a =>
        rw [allocSeq_cons_ok t req reqs a t2 hx]
        have hperm := alloc_occ (needed t) t req a t2 hl hx
        have hl2 := alloc_leafy (needed t) t req (some a) t2 hl hx
        have hg2 := alloc_geom (needed t) t req (some a) t2 off sz hg hx
        obtain ⟨ihl, ihg, ihp⟩ := ih t2 off sz hl2 hg2
        refine ⟨ihl, ihg, ?_⟩
        rw [List.cons_append]
        exact ihp.trans ((hperm.append_left _).trans List.perm_middle)

theorem alloc_grant (fuel : Nat) :
    ∀ (o s req : Nat), 1 ≤ req → req ≤ s → s + 1 ≤ fuel →
      ∃ g p t', allocN fuel (.node .free o s .nil .nil) req = some (some (o, g, p), t') ∧
        req ≤ g ∧ g / 2 < req ∧ ∃ k, g = s / 2 ^ k := by
  induction fuel with
  | zero => intro o s req _ _ h; omega
  | succ n ih =>
    intro o s req h1 h2 hf
    by_cases hsplit : s / 2 ≥ req
    · obtain ⟨g, p, t', heq, hg1, hg2, k, hk⟩ := ih o (s / 2) req h1 hsplit (by omega)
      refine ⟨g, Dir.l :: p, .node .split o s t' .nil, ?_, hg1, hg2, k + 1, ?_⟩
      · simp only [allocN]
        rw [if_pos hsplit, bufNodeNew_true, heq]
        simp
      · rw [hk]
        simp [Nat.div_div_eq_div_mul, pow_succ, Nat.mul_comm]
    · refine ⟨s, [], .node .occupied o s .nil .nil, ?_, h2, by omega, 0, by simp⟩
      simp only [allocN]
      rw [if_neg hsplit, if_pos h2]

theorem grant_min (s req g : Nat) (hk : ∃ k, g = s / 2 ^ k) (h1 : req ≤ g)
    (h2 : g / 2 < req) : ∀ j, req ≤ s / 2 ^ j → g ≤ s / 2 ^ j := by
  obtain ⟨k, rfl⟩ := hk
  intro j hj
  rcases le_or_lt j k with hjk | hjk
  · exact Nat.div_le_div_left (Nat.pow_le_pow_right (by omega) hjk)
      (Nat.pos_pow_of_pos j (by omega))
  · have h3 : s / 2 ^ j ≤ s / 2 ^ (k + 1) :=
      Nat.div_le_div_left (Nat.pow_le_pow_right (by omega) (by omega))
        (Nat.pos_pow_of_pos (k + 1) (by omega))
    have h4 : s / 2 ^ (k + 1) = s / 2 ^ k / 2 := by
      rw [Nat.div_div_eq_div_mul, pow_succ]
    omega

/-- C1: the round-trip property fails on the code.  On a fresh allocator of
total size 1024, `Allocate(1)` succeeds (offset 0, granted size 1, handle
node at the end of ten left edges), but `Free` on that handle coalesces all
the way up to the root, destroys the root's children, leaves the root typed
`Split`, and then calls `node_update(NULL)` — a null-pointer dereference.
The subsequent `Allocate(total_size)` required by the claim can therefore
never succeed (and even ignoring the null call, the root remains `Split`
with no children, on which `alloc_buf_node` fails for any request larger
than half the root). -/
theorem round_trip_null_deref :
    allocOut (freshBuf 1024) 1 = some (0, 1, List.replicate 10 Dir.l) ∧
    buddyFree (allocNext (freshBuf 1024) 1) (List.replicate 10 Dir.l) =
      .ub .nullParent := by
  decide

/-- C2: the claimed safety property fails on the code.  On a fresh
allocator of total size 4, `Allocate(1)` splits twice and occupies the node
at path `[l, l]`; `Free` on that handle coalesces the node at `[l]` and
then the root itself, after which `node_update` is called on the root's
parent, which is NULL — the fix-up does operate on a nonexistent node when
the coalesced `Split` node is the root. -/
theorem fixup_reaches_null_parent :
    allocOut (freshBuf 4) 1 = some (0, 1, [Dir.l, Dir.l]) ∧
    buddyFree (allocNext (freshBuf 4) 1) [Dir.l, Dir.l] = .ub .nullParent := by
  decide

/-- C3, counterexample: after `Allocate(200)` and `Allocate(300)` on a
fresh allocator of total size 1024, the node at path `[l]` is a `Split`
node of offset 0 and size 512; `Free` on the first handle (path `[l, l]`)
makes both children of `[l]` absent, so `node_update` visits `[l]` as an
eligible `Split` node and the fix-up completes without UB — but afterwards
the node at `[l]` does not exist at all (the parent's child pointer is
NULL), rather than existing with state `Free` as the claim asserts. -/
theorem coalesce_destroys_node_cex :
    nodeInfo (allocNext (allocNext (freshBuf 1024) 200) 300) [Dir.l] =
      some (.split, 0, 512) ∧
    (buddyFree (allocNext (allocNext (freshBuf 1024) 200) 300)
      [Dir.l, Dir.l]).isOk = true ∧
    getSub (freeNext (allocNext (allocNext (freshBuf 1024) 200) 300)
      [Dir.l, Dir.l]) [Dir.l] = .nil := by
  decide

/-- C3, amended: whenever `node_update` visits a non-root `Split` node both
of whose children are absent or `Free`, it destroys that node's entire
subtree including the node itself (`destroy_buf_node` frees the node and
clears the parent's child pointer, so that half becomes an absent,
implicitly-free child) and continues the fix-up at the node's parent; in
particular, if the fix-up completes without UB, the visited node no longer
exists in the tree — it is not set back to `Free`.  (`FreeRes.getD .nil`
reads the resulting tree of a completed fix-up; in the UB case the claim
about the final tree is vacuous.) -/
theorem coalesce_removes_node (t : Tree) (p : List Dir) (o s : Nat) (cl cr : Tree)
    (hne : p ≠ [])
    (hp : getSub t p = .node .split o s cl cr)
    (hcl : nilOrFree cl = true) (hcr : nilOrFree cr = true) :
    nodeUpdR p.reverse t = nodeUpdR p.dropLast.reverse (setSub t p .nil) ∧
    getSub ((nodeUpdR p.reverse t).getD .nil) p = .nil := by
  have h2 : p.reverse = p.getLast hne :: p.dropLast.reverse := by
    conv_lhs => rw [← List.dropLast_append_getLast hne]
    rw [List.reverse_append]
    simp
  have hget' : getSub t (p.getLast hne :: p.dropLast.reverse).reverse =
      .node .split o s cl cr := by
    rw [← h2, List.reverse_reverse]
    exact hp
  have hstep : nodeUpdR p.reverse t = nodeUpdR p.dropLast.reverse (setSub t p .nil) := by
    rw [h2, nupd_split_co_cons _ _ _ _ _ _ _ hget' (by rw [hcl, hcr]; rfl)]
    rw [← h2, List.reverse_reverse]
  refine ⟨hstep, ?_⟩
  cases hrun : nodeUpdR p.reverse t with
  | ub k => simp [FreeRes.getD, getSub_nil]
  | ok t' =>
    have hrun2 : nodeUpdR p.dropLast.reverse (setSub t p .nil) = .ok t' := by
      rw [← hstep]
      exact hrun
    have hnone : nodeInfo (setSub t p .nil) p = none := by
      rw [info_remove p t p (by rw [hp]; simp), if_pos (pre_self p)]
    have hfin := nu_none p.dropLast.reverse _ t' hrun2 p hnone
    simpa [FreeRes.getD] using (nodeInfo_none_iff _ _).mp hfin

/-- Witness for the amended C3: a concrete eligible non-root `Split` node
(at path `[l]`, with an occupied sibling keeping the root from coalescing)
is removed by the fix-up. -/
theorem coalesce_removes_node_witness :
    (([Dir.l] : List Dir) ≠ []) ∧
    getSub (.node .split 0 4 (.node .split 0 2 .nil .nil)
      (.node .occupied 2 2 .nil .nil)) [Dir.l] = .node .split 0 2 .nil .nil ∧
    nilOrFree .nil = true ∧ nilOrFree .nil = true ∧
    (nodeUpdR ([Dir.l] : List Dir).reverse
        (.node .split 0 4 (.node .split 0 2 .nil .nil) (.node .occupied 2 2 .nil .nil)) =
      nodeUpdR ([Dir.l] : List Dir).dropLast.reverse
        (setSub (.node .split 0 4 (.node .split 0 2 .nil .nil)
          (.node .occupied 2 2 .nil .nil)) [Dir.l] .nil) ∧
    getSub ((nodeUpdR ([Dir.l] : List Dir).reverse
        (.node .split 0 4 (.node .split 0 2 .nil .nil)
          (.node .occupied 2 2 .nil .nil))).getD .nil) [Dir.l] = .nil) :=
  ⟨by decide, by decide, by decide, by decide,
    coalesce_removes_node
      (.node .split 0 4 (.node .split 0 2 .nil .nil) (.node .occupied 2 2 .nil .nil))
      [Dir.l] 0 2 .nil .nil (by decide) (by decide) (by decide) (by decide)⟩

/-- C5: on a fresh allocator with total size 1024, two `Allocate(200)`
calls grant `(0, 256)` and `(256, 256)`; after freeing only the first
handle, `Allocate(256)` succeeds and reuses offset 0 (the freed
partition), while the second allocation's node is still `Occupied` with
unchanged offset 256 and size 256. -/
theorem partial_coalescing_boundary :
    allocOut (freshBuf 1024) 200 = some (0, 256, [Dir.l, Dir.l]) ∧
    allocOut (allocNext (freshBuf 1024) 200) 200 = some (256, 256, [Dir.l, Dir.r]) ∧
    (buddyFree (allocNext (allocNext (freshBuf 1024) 200) 200) [Dir.l, Dir.l]).isOk
      = true ∧
    allocOut (freeNext (allocNext (allocNext (freshBuf 1024) 200) 200) [Dir.l, Dir.l])
      256 = some (0, 256, [Dir.l, Dir.l]) ∧
    nodeInfo
      (allocNext
        (freeNext (allocNext (allocNext (freshBuf 1024) 200) 200) [Dir.l, Dir.l]) 256)
      [Dir.l, Dir.r] = some (.occupied, 256, 256) := by
  decide

/-- C4: a `Split` node that has a child in state `Occupied` is never merged
back to `Free` by `node_update`, no matter where the fix-up starts or how
far it ascends: after any completed fix-up run the node is still present
with state `Split`, and its occupied child is untouched.  The hypothesis
`leafyB t = true` holds for every reachable tree state (`reach_inv`) and is
preserved by the marking step of `buddy_buf_free`, so it covers the state
at the instant every `node_update` invocation of the public API begins. -/
theorem no_false_coalescing (t t' : Tree) (p : List Dir) (d : Dir)
    (o s o2 s2 : Nat) (rq : List Dir)
    (hl : leafyB t = true)
    (hp : nodeInfo t p = some (.split, o, s))
    (hd : nodeInfo t (p ++ [d]) = some (.occupied, o2, s2))
    (hrun : nodeUpdR rq t = .ok t') :
    nodeInfo t' p = some (.split, o, s) ∧
      nodeInfo t' (p ++ [d]) = some (.occupied, o2, s2) := by
  obtain ⟨-, h1, h2⟩ := nu_keep rq t t' p d o s o2 s2 hl hp hd hrun
  exact ⟨h1, h2⟩

/-- Witness for C4: the tree after `Allocate(1)` on a fresh allocator of
size 4 has a `Split` node at `[l]` whose left child (path `[l, l]`) is
`Occupied`; running the fix-up at `[l]` leaves both intact. -/
theorem no_false_coalescing_witness :
    leafyB (allocNext (freshBuf 4) 1) = true ∧
    nodeInfo (allocNext (freshBuf 4) 1) [Dir.l] = some (.split, 0, 2) ∧
    nodeInfo (allocNext (freshBuf 4) 1) ([Dir.l] ++ [Dir.l]) = some (.occupied, 0, 1) ∧
    nodeUpdR [Dir.l] (allocNext (freshBuf 4) 1) = .ok (allocNext (freshBuf 4) 1) ∧
    (nodeInfo (allocNext (freshBuf 4) 1) [Dir.l] = some (.split, 0, 2) ∧
      nodeInfo (allocNext (freshBuf 4) 1) ([Dir.l] ++ [Dir.l]) =
        some (.occupied, 0, 1)) :=
  ⟨by decide, by decide, by decide, by decide,
    no_false_coalescing (allocNext (freshBuf 4) 1) (allocNext (freshBuf 4) 1)
      [Dir.l] Dir.l 0 2 0 1 [Dir.l] (by decide) (by decide) (by decide) (by decide)⟩

/-- C6: for every `total_size > 0` and every request `1 ≤ req ≤ total_size`,
the first `Allocate` on a fresh allocator succeeds, its returned offset is
0 (hence a multiple of the granted size), and the granted size is the
smallest value obtainable from `total_size` by repeated floor-halving
(equivalently `total_size / 2 ^ k`) that is still at least the request. -/
theorem first_fit_grant (T req : Nat) (h1 : 1 ≤ req) (h2 : req ≤ T) :
    ∃ g p t', allocTop (freshBuf T) req = some (some (0, g, p), t') ∧
      g ∣ 0 ∧ req ≤ g ∧ (∃ k, g = T / 2 ^ k) ∧
      ∀ j, req ≤ T / 2 ^ j → g ≤ T / 2 ^ j := by
  have hf : T + 1 ≤ needed (freshBuf T) := by
    simp only [freshBuf, needed]
    omega
  obtain ⟨g, p, t', heq, hg1, hg2, hk⟩ :=
    alloc_grant (needed (freshBuf T)) 0 T req h1 h2 hf
  exact ⟨g, p, t', heq, dvd_zero g, hg1, hk, grant_min T req g hk hg1 hg2⟩

/-- Witness for C6 at `total_size = 8`, request 3 (granted size 4). -/
theorem first_fit_grant_witness :
    1 ≤ 3 ∧ 3 ≤ 8 ∧
    (∃ g p t', allocTop (freshBuf 8) 3 = some (some (0, g, p), t') ∧
      g ∣ 0 ∧ 3 ≤ g ∧ (∃ k, g = 8 / 2 ^ k) ∧
      ∀ j, 3 ≤ 8 / 2 ^ j → g ≤ 8 / 2 ^ j) :=
  ⟨by decide, by decide, first_fit_grant 8 3 (by decide) (by decide)⟩

/-- C7: for every fresh allocator and every sequence of `Allocate` calls
with no intervening `Free` (each request positive, as the API requires),
the returned `(offset, size)` ranges are pairwise non-overlapping half-open
intervals lying inside `[0, total_size)`. -/
theorem alloc_disjoint (T : Nat) (reqs : List Nat) (hreq : ∀ r ∈ reqs, 1 ≤ r) :
    List.Pairwise disjointR (allocSeq (freshBuf T) reqs).1 ∧
      ∀ a ∈ (allocSeq (freshBuf T) reqs).1, a.1 + a.2 ≤ T := by
  have hl : leafyB (freshBuf T) = true := rfl
  have hg : geomB 0 T (freshBuf T) = true := geom_free_node 0 T
  obtain ⟨hlf, hgf, hperm⟩ := seq_inv reqs (freshBuf T) 0 T hl hg
  have hocc := occ_disj _ 0 T hgf hlf
  have hfresh : occList (freshBuf T) = [] := rfl
  have hperm2 : List.Perm (occList (allocSeq (freshBuf T) reqs).2)
      (allocSeq (freshBuf T) reqs).1 := by
    rw [hfresh, List.append_nil] at hperm
    exact hperm
  have hsymm : ∀ {x y : Nat × Nat}, disjointR x y → disjointR y x := by
    intro x y hab
    rcases hab with h | h
    · right; exact h
    · left; exact h
  refine ⟨(hperm2.pairwise_iff hsymm).mp hocc.1, ?_⟩
  intro a ha
  have hmem : a ∈ occList (allocSeq (freshBuf T) reqs).2 := hperm2.mem_iff.mpr ha
  have hb := hocc.2 a hmem
  omega

/-- Witness for C7 with `total_size = 8` and requests `[3, 2]`. -/
theorem alloc_disjoint_witness :
    (∀ r ∈ ([3, 2] : List Nat), 1 ≤ r) ∧
    (List.Pairwise disjointR (allocSeq (freshBuf 8) [3, 2]).1 ∧
      ∀ a ∈ (allocSeq (freshBuf 8) [3, 2]).1, a.1 + a.2 ≤ 8) :=
  ⟨by decide, alloc_disjoint 8 [3, 2] (by decide)⟩

/-- C8: in every reachable tree state, every existing node at depth `d`
from the root has size `total_size / 2 ^ d` (iterated floor halving), and
every materialized child (created by `buf_node_new`) has size exactly half
of its parent's (floor), with the left child at the parent's offset and
the right child at the parent's offset plus half the parent's size. -/
theorem node_size_depth (T : Nat) (t : Tree) (hR : Reachable T t)
    (p : List Dir) (ty : NTy) (o s : Nat) (l r : Tree)
    (hget : getSub t p = .node ty o s l r) :
    s = T / 2 ^ p.length ∧
      (l ≠ .nil → offOf l = o ∧ szOf l = s / 2) ∧
      (r ≠ .nil → offOf r = o + s / 2 ∧ szOf r = s / 2) := by
  have hg := (reach_inv T t hR).2
  have hsub := geom_getSub p t 0 T ty o s l r hg hget
  rw [geom_node_iff] at hsub
  refine ⟨geom_depth p t 0 T ty o s l r hg hget, ?_, ?_⟩
  · intro hne
    cases l with
    | nil => exact absurd rfl hne
    | node lty lo ls ll lr =>
      have hchild := hsub.2.2.1
      rw [geom_node_iff] at hchild
      simp only [offOf, szOf]
      exact ⟨hchild.1, hchild.2.1⟩
  · intro hne
    cases r with
    | nil => exact absurd rfl hne
    | node rty ro rs rl rr =>
      have hchild := hsub.2.2.2
      rw [geom_node_iff] at hchild
      simp only [offOf, szOf]
      exact ⟨hchild.1, hchild.2.1⟩

/-- Witness for C8: the reachable tree after `Allocate(1)` on a fresh
allocator of size 4, at the depth-1 node `[l]`. -/
theorem node_size_depth_witness :
    Reachable 4 (allocNext (freshBuf 4) 1) ∧
    getSub (allocNext (freshBuf 4) 1) [Dir.l] =
      .node .split 0 2 (.node .occupied 0 1 .nil .nil) .nil ∧
    (2 = 4 / 2 ^ ([Dir.l] : List Dir).length ∧
      ((.node .occupied 0 1 .nil .nil : Tree) ≠ .nil →
        offOf (.node .occupied 0 1 .nil .nil) = 0 ∧
        szOf (.node .occupied 0 1 .nil .nil) = 2 / 2) ∧
      ((Tree.nil : Tree) ≠ .nil →
        offOf .nil = 0 + 2 / 2 ∧ szOf .nil = 2 / 2)) := by
  have hR : Reachable 4 (allocNext (freshBuf 4) 1) :=
    Reachable.stepAlloc Reachable.base (by decide)
      (by decide :
        allocTop (freshBuf 4) 1 =
          some (some (0, 1, [Dir.l, Dir.l]), allocNext (freshBuf 4) 1))
  exact ⟨hR, by decide,
    node_size_depth 4 (allocNext (freshBuf 4) 1) hR [Dir.l] .split 0 2
      (.node .occupied 0 1 .nil .nil) .nil (by decide)⟩

/-- C9: on every reachable tree state, if `Allocate` fails (result flag 0,
here the `none` payload, so the caller's output struct is never written),
the tree is left exactly as it was: no node's state changes and no child is
materialized. -/
theorem alloc_fail_no_change (T : Nat) (t : Tree) (req : Nat) (t' : Tree)
    (hR : Reachable T t) (hreq : 1 ≤ req)
    (h : allocTop t req = some (none, t')) : t' = t :=
  alloc_fail_eq (needed t) t req t' h

/-- Witness for C9: an allocator of size 1 whose root is occupied rejects a
further request and leaves the tree unchanged. -/
theorem alloc_fail_no_change_witness :
    Reachable 1 (allocNext (freshBuf 1) 1) ∧ 1 ≤ 1 ∧
    allocTop (allocNext (freshBuf 1) 1) 1 = some (none, allocNext (freshBuf 1) 1) ∧
    allocNext (freshBuf 1) 1 = allocNext (freshBuf 1) 1 := by
  have hR : Reachable 1 (allocNext (freshBuf 1) 1) :=
    Reachable.stepAlloc Reachable.base (by decide)
      (by decide :
        allocTop (freshBuf 1) 1 =
          some (some (0, 1, []), allocNext (freshBuf 1) 1))
  exact ⟨hR, by decide, by decide,
    alloc_fail_no_change 1 (allocNext (freshBuf 1) 1) 1 (allocNext (freshBuf 1) 1)
      hR (by decide) (by decide)⟩

/-- C10: with any positive request the allocation descent terminates: the
fueled embedding produces an answer at fuel `needed t`, and every larger
fuel produces the same answer, so the embedded `alloc_buf_node` is total
under the precondition `size ≥ 1`.  (Splitting of a `FREE` node happens
only when `size / 2 ≥ req ≥ 1`, so every recursive call is on a node of
strictly smaller size, and descent into existing children is structural.) -/
theorem alloc_descent_total (req : Nat) (hreq : 1 ≤ req) (t : Tree) :
    (allocN (needed t) t req).isSome = true ∧
      ∀ fuel, needed t ≤ fuel → allocN fuel t req = allocN (needed t) t req := by
  have h1 := alloc_total (needed t) t req hreq le_rfl
  refine ⟨h1, ?_⟩
  intro fuel hf
  rcases hx : allocN (needed t) t req with _ | x
  · rw [hx] at h1
    simp at h1
  · rw [alloc_mono_le (needed t) fuel hf t req x hx]

/-- Witness for C10 at request 1 on a fresh allocator of size 4. -/
theorem alloc_descent_total_witness :
    1 ≤ 1 ∧
    ((allocN (needed (freshBuf 4)) (freshBuf 4) 1).isSome = true ∧
      ∀ fuel, needed (freshBuf 4) ≤ fuel →
        allocN fuel (freshBuf 4) 1 = allocN (needed (freshBuf 4)) (freshBuf 4) 1) :=
  ⟨by decide, alloc_descent_total 1 (by decide) (freshBuf 4)⟩

end Buddy
